import Mathlib

/-!
Shallow embedding of `remove_duplicates.py` from the
google-photos-deduplicator-and-metadata-merger repository.

Modelling conventions:
* One directory is modelled by its listing (`List String` of file names) plus
  an association list mapping each `.json` file name to its parsed content:
  `some m` when `json.load` succeeds with content `m`, `none` when the file is
  unparsable (in which case `json.load` raises).  `os.path.join` with the
  constant directory prefix is an injective decoration and is omitted: paths
  are the file names themselves.
* Python values stored in the `photo_taken_time` field of a grouped record are
  one of three kinds: the initial empty string `""` (no sidecar found), Python
  `None` (sidecar present but without a `photoTakenTime` key), or the
  timestamp value.  Python `==` on these is structural equality across the
  three kinds, captured by `DecidableEq` on the inductive `TimeVal`.
* Exceptions are modelled with `Except Unit`: `json.load` raising on a
  malformed sidecar is `.error ()`, which propagates exactly as an uncaught
  Python exception does.
* Regular-expression matches (`re.match` with `re.IGNORECASE`) are translated
  to explicit string decompositions over lower-cased strings; `re.escape`
  makes the interpolated fragments literal.  ASCII file names are assumed
  (where Python `str.lower` and `re.IGNORECASE` agree).
* String scanning is implemented over `List Char` (via `String.toList` /
  `String.mk`) so that every definition evaluates by kernel reduction.
-/

/-- The Python value held in the `photo_taken_time` field of a record:
`emptyStr` is the initial `""` kept when no sidecar was found, `pyNone` is
Python `None` (sidecar without a `photoTakenTime` key), and `stamp t` is the
timestamp extracted from the sidecar. -/
inductive TimeVal where
  | emptyStr : TimeVal
  | pyNone : TimeVal
  | stamp : Int → TimeVal
deriving DecidableEq

/-- Parsed sidecar content: the optional `title` string and the optional
`photoTakenTime.timestamp` integer (spec section 3). -/
structure Metadata where
  title : Option String
  photoTakenTime : Option Int
deriving DecidableEq

/-- One grouped media record, mirroring the dict built at line 113 of the
source: `{"base_name": file, "photo_taken_time": ..., "file_path": ...,
"json_path": ...}`. -/
structure MediaRecord where
  base_name : String
  photo_taken_time : TimeVal
  file_path : String
  json_path : String
deriving DecidableEq

/-- Grouping keys are the Python dict keys of `name_to_files`: either a string
(`some s`) or Python `None` (`none`, produced by `get_title` when the sidecar
has no `title` key). -/
abbrev GroupKey := Option String

abbrev Grouping := List (GroupKey × List MediaRecord)

/-- Parsed contents of the directory's `.json` files, keyed by file name;
`some none` marks a sidecar that fails to parse (`json.load` raises). -/
abbrev JsonData := List (String × Option Metadata)

/-- Python `str.lower`, over the character list of the string. -/
def lowerStr (s : String) : String :=
  String.mk (s.toList.map Char.toLower)

/-- Prefix test on strings, via the character lists. -/
def beginsWith (s pre : String) : Bool :=
  pre.toList.isPrefixOf s.toList

/-- Suffix test on strings, via the character lists. -/
def finishesWith (s post : String) : Bool :=
  post.toList.isSuffixOf s.toList

/-- Drop the first `n` characters of a string. -/
def strDrop (s : String) (n : Nat) : String :=
  String.mk (s.toList.drop n)

/-- Drop the last `n` characters of a string. -/
def strDropRight (s : String) (n : Nat) : String :=
  String.mk (s.toList.take (s.toList.length - n))

/-- Character count of a string. -/
def strLen (s : String) : Nat :=
  s.toList.length

/-- Index of the last element of the list satisfying `p`, if any. -/
def lastIdxAux (p : Char → Bool) : List Char → Option Nat
  | [] => none
  | c :: rest =>
    match lastIdxAux p rest with
    | some i => some (i + 1)
    | none => if p c then some 0 else none

/-- Model of `os.path.splitext` on a base name: split at the last dot, unless
every character before that dot is itself a dot (then there is no extension). -/
def splitExt (s : String) : String × String :=
  let cs := s.toList
  match lastIdxAux (fun c => c = '.') cs with
  | none => (s, "")
  | some i =>
    if (cs.take i).all (fun c => c = '.') then (s, "")
    else (⟨cs.take i⟩, ⟨cs.drop i⟩)

/-- Model of `re.match(r"^(.*?)\((\d+)\)$", stem)` at lines 25-28: succeeds
exactly when the stem ends in `(digits)` with a nonempty digit run between the
last opening parenthesis and the final closing one; returns the part before
the counter and the counter digits. -/
def extractCounter (stem : String) : Option (String × String) :=
  let cs := stem.toList
  match cs.getLast? with
  | some ')' =>
    match lastIdxAux (fun c => c = '(') cs with
    | none => none
    | some i =>
      let mid := (cs.drop (i + 1)).dropLast
      if !mid.isEmpty && mid.all Char.isDigit then some (⟨cs.take i⟩, ⟨mid⟩)
      else none
  | _ => none

/-- Case 1 at line 37: exact, case-sensitive equality with `{base_name}.json`. -/
def matchCase1 (base file : String) : Bool :=
  file == base ++ ".json"

/-- Decomposition behind case 2's regex on already lower-cased strings:
`lf = lb ++ "." ++ mid ++ ".json"` with `mid` nonempty and free of
parentheses (the `[^()]+` class). -/
def case2core (lb lf : String) : Bool :=
  beginsWith lf (lb ++ ".") && finishesWith lf ".json" &&
    (let mid := strDropRight (strDrop lf (strLen lb + 1)) 5
     !mid.toList.isEmpty && mid.toList.all (fun c => c != '(' && c != ')'))

/-- Case 2 at lines 41-45: `^{base_name}\.[^()]+\.json$` with `re.IGNORECASE`. -/
def matchCase2 (base file : String) : Bool :=
  case2core (lowerStr base) (lowerStr file)

/-- Decomposition behind case 3's regex on already lower-cased strings:
`lf = lbwc ++ "." ++ mid ++ "(" ++ c ++ ").json"` with `mid` nonempty
(the lazy `.+?` does not change which strings match an anchored pattern). -/
def case3core (lbwc c lf : String) : Bool :=
  beginsWith lf (lbwc ++ ".") && finishesWith lf ("(" ++ c ++ ").json") &&
    decide (strLen lbwc + strLen c + 9 ≤ strLen lf)

/-- Case 3 at lines 50-57: `^{base_name_without_counter}\..+?\({counter}\)\.json$`
with `re.IGNORECASE`, attempted only when a counter is present. -/
def matchCase3 (base file : String) : Bool :=
  match extractCounter (splitExt base).1 with
  | some (bwc, c) => case3core (lowerStr bwc) c (lowerStr file)
  | none => false

/-- Decomposition behind case 4's regex.  The source interpolates a literal
backslash followed by `re.escape(ext)`, so the pattern's character stream
begins `\\` (a literal backslash) followed by `.` (the formerly escaped dot of
the extension, now an any-character metacharacter).  The file name must thus
contain a literal backslash, then one arbitrary character, then the extension
body, then `.`, then one or more characters, then `.json`.  When the
extension is empty the stream is `\\` then `.` (any character) then `.+?`
then `\.json`. -/
def case4core (lbwc c extLower lf : String) : Bool :=
  let pre := lbwc ++ "(" ++ c ++ ")" ++ "\\"
  beginsWith lf pre &&
    (let rest := strDrop lf (strLen pre)
     !rest.toList.isEmpty &&
       (let rest1 := strDrop rest 1
        if extLower.toList.isEmpty then
          finishesWith rest1 ".json" && decide (6 ≤ strLen rest1)
        else
          (let body := strDrop extLower 1
           beginsWith rest1 body &&
             (let rest2 := strDrop rest1 (strLen body)
              beginsWith rest2 "." && finishesWith rest2 ".json" &&
                decide (7 ≤ strLen rest2)))))

/-- Case 4 at lines 60-67, attempted only when a counter is present. -/
def matchCase4 (base file : String) : Bool :=
  let se := splitExt base
  match extractCounter se.1 with
  | some (bwc, c) => case4core (lowerStr bwc) c (lowerStr se.2) (lowerStr file)
  | none => false

/-- Disjunction of the four per-file pattern checks, in source order. -/
def matchesAnyPattern (base file : String) : Bool :=
  matchCase1 base file || matchCase2 base file ||
    matchCase3 base file || matchCase4 base file

/-- Model of `find_metadata_file` (lines 18-69): scan the directory listing in
order; for each `.json` entry try case 1, then 2, then 3, then 4, returning
the entry on the first case that matches; move to the next entry otherwise. -/
def find_metadata_file (base : String) : List String → Option String
  | [] => none
  | file :: rest =>
    if finishesWith file ".json" then
      if matchCase1 base file then some file
      else if matchCase2 base file then some file
      else if matchCase3 base file then some file
      else if matchCase4 base file then some file
      else find_metadata_file base rest
    else find_metadata_file base rest

/-- First-match lookup in the parsed-sidecar table, mirroring a read of the
file at that name. -/
def lookupJson (jd : JsonData) (name : String) : Option (Option Metadata) :=
  (jd.find? (fun kv => kv.1 == name)).map (fun kv => kv.2)

/-- Model of `load_metadata` (lines 71-77): locate the sidecar, return `none`
when there is none (or it does not exist), raise (`.error ()`) when
`json.load` fails, and otherwise return the sidecar path with its content. -/
def load_metadata (f : String) (listing : List String) (jd : JsonData) :
    Except Unit (Option (String × Metadata)) :=
  match find_metadata_file f listing with
  | none => Except.ok none
  | some j =>
    match lookupJson jd j with
    | none => Except.ok none
    | some none => Except.error ()
    | some (some m) => Except.ok (some (j, m))

/-- Model of `get_photo_taken_time` (lines 79-83) on present metadata. -/
def get_photo_taken_time (m : Metadata) : Option Int :=
  m.photoTakenTime

/-- Model of `get_title` (lines 85-89) on present metadata: the lower-cased
title when the key is present, Python `None` otherwise. -/
def get_title (m : Metadata) : Option String :=
  m.title.map lowerStr

/-- Append a record to the list held under a key, creating the entry at the
end when the key is new — the behaviour of `defaultdict(list)` append with
dict insertion order. -/
def addRecord : Grouping → GroupKey → MediaRecord → Grouping
  | [], k, r => [(k, [r])]
  | (k', rs) :: t, k, r =>
    if k' == k then (k', rs ++ [r]) :: t else (k', rs) :: addRecord t k r

/-- The timestamp value stored by the grouper when a sidecar was parsed. -/
def timeOf (m : Metadata) : TimeVal :=
  match get_photo_taken_time m with
  | some t => TimeVal.stamp t
  | none => TimeVal.pyNone

/-- Loop body of `group_files_by_name_and_metadata` (lines 94-114) over the
remaining walk entries, threading the grouping built so far.  `.json` entries
are skipped; for the rest the sidecar is resolved, and the record is filed
under `get_title` of the parsed sidecar when one was loaded, else under the
lower-cased base name without extension. -/
def group_go (listing : List String) (jd : JsonData) :
    List String → Grouping → Except Unit Grouping
  | [], g => Except.ok g
  | f :: rest, g =>
    if finishesWith f ".json" then group_go listing jd rest g
    else
      match load_metadata f listing jd with
      | Except.error e => Except.error e
      | Except.ok none =>
        group_go listing jd rest
          (addRecord g (some (lowerStr (splitExt f).1))
            ⟨f, TimeVal.emptyStr, f, ""⟩)
      | Except.ok (some pm) =>
        group_go listing jd rest
          (addRecord g (get_title pm.2) ⟨f, timeOf pm.2, f, pm.1⟩)

/-- Model of `group_files_by_name_and_metadata` (lines 91-115) for one
directory: the walk order and the `os.listdir` order coincide with the order
of `files`. -/
def group_files_by_name_and_metadata (files : List String) (jd : JsonData) :
    Except Unit Grouping :=
  group_go files jd files []

/-- Python `title in albums_name_to_files` followed by indexing: first (and,
for groupings built by the grouper, only) entry with that key. -/
def lookupKey (g : Grouping) (k : GroupKey) : Option (List MediaRecord) :=
  (g.find? (fun kv => kv.1 == k)).map (fun kv => kv.2)

/-- Inner loop of the `>1:>1` branch (lines 154-160): scan the album records
in list order and stop at the first timestamp match (`break`), returning the
matched album record if any. -/
def scanAlbums (gp : MediaRecord) : List MediaRecord → Option MediaRecord
  | [] => none
  | alb :: rest =>
    if gp.photo_taken_time == alb.photo_taken_time then some alb
    else scanAlbums gp rest

/-- The `>1:1` branch (lines 135-142): every candidate whose timestamp value
equals the single album record's is appended (media path then json path). -/
def branch21 (alb : MediaRecord) : List MediaRecord → List String
  | [] => []
  | gp :: rest =>
    if alb.photo_taken_time == gp.photo_taken_time then
      gp.file_path :: gp.json_path :: branch21 alb rest
    else branch21 alb rest

/-- The `1:>1` branch (lines 143-150): the single candidate's paths are
appended once for every album record with an equal timestamp value (the
source has no break here). -/
def branch12 (gp : MediaRecord) : List MediaRecord → List String
  | [] => []
  | alb :: rest =>
    if gp.photo_taken_time == alb.photo_taken_time then
      gp.file_path :: gp.json_path :: branch12 gp rest
    else branch12 gp rest

/-- The `>1:>1` branch (lines 151-160): each candidate's paths are appended
once when some album record matches; the inner scan stops at the first match. -/
def branchBig (album_files : List MediaRecord) : List MediaRecord → List String
  | [] => []
  | gp :: rest =>
    match scanAlbums gp album_files with
    | some _ => gp.file_path :: gp.json_path :: branchBig album_files rest
    | none => branchBig album_files rest

/-- Dispatch on the two list cardinalities, exactly the `if`/`elif` chain at
lines 129-160; an empty list on either side (impossible for grouper output)
falls through all four tests and contributes nothing. -/
def branchFor (album_files photos_files : List MediaRecord) : List String :=
  match photos_files, album_files with
  | [gp], [_] => [gp.file_path, gp.json_path]
  | gp1 :: gp2 :: gps, [alb] => branch21 alb (gp1 :: gp2 :: gps)
  | [gp], alb1 :: alb2 :: albs => branch12 gp (alb1 :: alb2 :: albs)
  | gp1 :: gp2 :: gps, alb1 :: alb2 :: albs =>
    branchBig (alb1 :: alb2 :: albs) (gp1 :: gp2 :: gps)
  | _, _ => []

/-- The duplicates list accumulated by the Step-2 loop of `find_duplicates`
(lines 126-160), before deduplication: iterate over the candidate grouping in
insertion order; keys missing from the album grouping contribute nothing. -/
def rawDuplicates (albums : Grouping) : Grouping → List String
  | [] => []
  | kv :: rest =>
    (match lookupKey albums kv.1 with
     | some album_files => branchFor album_files kv.2
     | none => []) ++ rawDuplicates albums rest

/-- The matcher of `find_duplicates` given the two groupings: the accumulated
list passed through `list(set(...))` at line 161.  Python's set iteration
order is unspecified, so only order-independent facts (membership, absence of
duplicates) are stated about the result. -/
def find_duplicates_core (albums photos : Grouping) : List String :=
  (rawDuplicates albums photos).dedup

/-- Model of the whole `find_duplicates` (lines 117-164): group both trees,
then run the matcher; an uncaught sidecar parse error propagates. -/
def find_duplicates (albumFiles : List String) (albumJd : JsonData)
    (photoFiles : List String) (photoJd : JsonData) :
    Except Unit (List String) :=
  match group_files_by_name_and_metadata albumFiles albumJd with
  | Except.error e => Except.error e
  | Except.ok ga =>
    match group_files_by_name_and_metadata photoFiles photoJd with
    | Except.error e => Except.error e
    | Except.ok gp => Except.ok (find_duplicates_core ga gp)

/-- Per-path outcome of the remover, standing for the two observable log
lines of lines 170-173. -/
inductive RemoveOutcome where
  | removed : RemoveOutcome
  | failed : RemoveOutcome
deriving DecidableEq

/-- Model of `remove_duplicates` (lines 166-173) against a filesystem
snapshot (the list of currently existing paths): each path is attempted
independently; `os.remove` failing (here: the path does not exist) is caught
by the `except (IOError, OSError)` handler, recorded, and the loop continues.
Returns the final filesystem state and the per-path outcomes in order. -/
def remove_duplicates : List String → List String → List String × List RemoveOutcome
  | [], fs => (fs, [])
  | p :: rest, fs =>
    if p ∈ fs then
      let r := remove_duplicates rest (fs.erase p)
      (r.1, RemoveOutcome.removed :: r.2)
    else
      let r := remove_duplicates rest fs
      (r.1, RemoveOutcome.failed :: r.2)

/-! Helper lemmas shared by several developments below. -/

/-- The listing scan of `find_metadata_file` is the first entry, in listing
order, that is a `.json` file matching at least one of the four cases. -/
lemma find_metadata_file_eq_find (base : String) (l : List String) :
    find_metadata_file base l =
      l.find? (fun f => finishesWith f ".json" && matchesAnyPattern base f) := by
  induction l with
  | nil => rfl
  | cons f rest ih =>
    cases hj : finishesWith f ".json" <;>
      cases h1 : matchCase1 base f <;>
        cases h2 : matchCase2 base f <;>
          cases h3 : matchCase3 base f <;>
            cases h4 : matchCase4 base f <;>
              simp [find_metadata_file, List.find?, matchesAnyPattern,
                hj, h1, h2, h3, h4, ih]

/-- A successful key lookup exhibits a grouping entry. -/
lemma lookupKey_mem {g : Grouping} {k : GroupKey} {R : List MediaRecord}
    (h : lookupKey g k = some R) : (k, R) ∈ g := by
  unfold lookupKey at h
  cases hf : g.find? (fun kv => kv.1 == k) with
  | none => rw [hf] at h; cases h
  | some kv =>
    rw [hf] at h
    obtain ⟨a, b⟩ := kv
    have hk : a = k := by
      have := List.find?_some hf
      simpa [beq_iff_eq] using this
    have hb : b = R := by simpa using h
    subst hk; subst hb
    exact List.mem_of_find?_eq_some hf

/-- Anything contributed by the branch of one candidate-grouping entry whose
key is found in the album grouping is in the accumulated duplicates list. -/
lemma mem_rawDuplicates_of (A : Grouping) {P : Grouping} {k : GroupKey}
    {recs : List MediaRecord} (hP : (k, recs) ∈ P) {R : List MediaRecord}
    (hA : lookupKey A k = some R) {x : String} (hx : x ∈ branchFor R recs) :
    x ∈ rawDuplicates A P := by
  induction P with
  | nil => cases hP
  | cons kv rest ih =>
    simp only [rawDuplicates, List.mem_append]
    rcases List.mem_cons.mp hP with h | h
    · left
      rw [← h]
      simp only [hA]
      exact hx
    · right
      exact ih h

/-- Claim C4 counterexample: for media file `photo.jpg`, a directory listing
that presents `photo.jpg.extra.json` (matching only the lower-priority
case 2) before `photo.jpg.json` (the exact case-1 form) makes the resolver
return the case-2 entry, so a higher-priority pattern entry is not preferred
when the listing order puts a lower-priority match first. -/
theorem pattern_priority_counterexample :
    find_metadata_file "photo.jpg" ["photo.jpg.extra.json", "photo.jpg.json"] =
        some "photo.jpg.extra.json" ∧
      matchCase1 "photo.jpg" "photo.jpg.json" = true ∧
      matchCase1 "photo.jpg" "photo.jpg.extra.json" = false ∧
      matchCase2 "photo.jpg" "photo.jpg.extra.json" = true := by
  decide

/-- Claim C4 (amended): the four patterns are applied in priority order only
within each directory entry; across entries the directory listing order
decides, the overall winner being the first listed entry matching any
pattern.  Hence the resolver is `List.find?` over the listing, and scanning a
concatenated listing prefers any match in the earlier part. -/
theorem pattern_priority_amended :
    (∀ base l, find_metadata_file base l =
        l.find? fun f => finishesWith f ".json" && matchesAnyPattern base f) ∧
    (∀ base l1 l2, find_metadata_file base (l1 ++ l2) =
        (find_metadata_file base l1).or (find_metadata_file base l2)) := by
  refine ⟨find_metadata_file_eq_find, ?_⟩
  intro base l1 l2
  rw [find_metadata_file_eq_find, find_metadata_file_eq_find,
    find_metadata_file_eq_find, List.find?_append]

/-- Claim C6: when a key has exactly one album record and exactly one
candidate record, the candidate's media path and json path are in the
matcher output for arbitrary timestamp values of either record — no
timestamp comparison is involved. -/
theorem one_to_one_unconditional (A P : Grouping) (k : GroupKey)
    (r c : MediaRecord) (hA : lookupKey A k = some [r])
    (hP : lookupKey P k = some [c]) :
    c.file_path ∈ find_duplicates_core A P ∧
      c.json_path ∈ find_duplicates_core A P := by
  have hmem := lookupKey_mem hP
  have h1 : c.file_path ∈ branchFor [r] [c] := by simp [branchFor]
  have h2 : c.json_path ∈ branchFor [r] [c] := by simp [branchFor]
  exact ⟨List.mem_dedup.mpr (mem_rawDuplicates_of A hmem hA h1),
    List.mem_dedup.mpr (mem_rawDuplicates_of A hmem hA h2)⟩

/-- Witness for claim C6 at a concrete input with differing timestamps. -/
theorem one_to_one_unconditional_witness :
    "P1" ∈ find_duplicates_core
        [(some "a", [⟨"a.jpg", TimeVal.stamp 100, "A1", "A1.json"⟩])]
        [(some "a", [⟨"a.jpg", TimeVal.stamp 999, "P1", "P1.json"⟩])] ∧
      "P1.json" ∈ find_duplicates_core
        [(some "a", [⟨"a.jpg", TimeVal.stamp 100, "A1", "A1.json"⟩])]
        [(some "a", [⟨"a.jpg", TimeVal.stamp 999, "P1", "P1.json"⟩])] :=
  one_to_one_unconditional _ _ (some "a")
    ⟨"a.jpg", TimeVal.stamp 100, "A1", "A1.json"⟩
    ⟨"a.jpg", TimeVal.stamp 999, "P1", "P1.json"⟩ rfl rfl

/-- Claim C7: in the `>1:>1` case the album list is scanned in list order
with the first timestamp match winning (the scan of an appended list never
looks past a match in the earlier part), and each candidate contributes its
two paths at most once — exactly once when some album record matches, never
otherwise. -/
theorem first_match_scan :
    (∀ gp R, scanAlbums gp R =
        R.find? fun alb => gp.photo_taken_time == alb.photo_taken_time) ∧
    (∀ gp R1 R2, scanAlbums gp (R1 ++ R2) =
        (scanAlbums gp R1).or (scanAlbums gp R2)) ∧
    (∀ A C, branchBig A C = C.flatMap fun gp =>
        if (scanAlbums gp A).isSome then [gp.file_path, gp.json_path]
        else []) := by
  refine ⟨?_, ?_, ?_⟩
  · intro gp R
    induction R with
    | nil => rfl
    | cons alb rest ih =>
      cases h : gp.photo_taken_time == alb.photo_taken_time <;>
        simp [scanAlbums, List.find?, h, ih]
  · intro gp R1 R2
    induction R1 with
    | nil => simp [scanAlbums]
    | cons alb rest ih =>
      cases h : gp.photo_taken_time == alb.photo_taken_time <;>
        simp [scanAlbums, h, ih]
  · intro A C
    induction C with
    | nil => rfl
    | cons gp rest ih =>
      cases h : scanAlbums gp A <;> simp [branchBig, h, ih]

/-- Claim C8: the matcher output is deduplicated — it has no repeated path,
every path occurs at most once, and membership agrees with the accumulated
pre-deduplication list. -/
theorem output_deduplicated :
    ∀ A P, (find_duplicates_core A P).Nodup ∧
      (∀ x, List.count x (find_duplicates_core A P) ≤ 1) ∧
      (∀ x, x ∈ find_duplicates_core A P ↔ x ∈ rawDuplicates A P) :=
  fun _ _ =>
    ⟨List.nodup_dedup _,
      fun x => List.nodup_iff_count_le_one.mp (List.nodup_dedup _) x,
      fun _ => List.mem_dedup⟩

/-- The remover never introduces paths: its final state is a sublist of the
starting snapshot. -/
lemma remove_duplicates_subset (paths : List String) :
    ∀ fs, (remove_duplicates paths fs).1 ⊆ fs := by
  induction paths with
  | nil => intro fs; exact fun x hx => hx
  | cons p rest ih =>
    intro fs
    by_cases h : p ∈ fs
    · simp only [remove_duplicates, if_pos h]
      exact fun x hx => List.erase_subset p fs (ih (fs.erase p) hx)
    · simp only [remove_duplicates, if_neg h]
      exact ih fs

/-- After one run over a duplicate-free snapshot, none of the attempted paths
remains. -/
lemma remove_duplicates_not_mem :
    ∀ (paths fs : List String), fs.Nodup →
      ∀ p ∈ paths, p ∉ (remove_duplicates paths fs).1 := by
  intro paths
  induction paths with
  | nil => intro fs _ p hp; cases hp
  | cons q rest ih =>
    intro fs hnd p hp
    by_cases hq : q ∈ fs
    · simp only [remove_duplicates, if_pos hq]
      rcases List.mem_cons.mp hp with rfl | hp'
      · intro hmem
        have hsub := remove_duplicates_subset rest (fs.erase p) hmem
        exact ((hnd.mem_erase_iff).mp hsub).1 rfl
      · exact ih (fs.erase q) (hnd.erase q) p hp'
    · simp only [remove_duplicates, if_neg hq]
      rcases List.mem_cons.mp hp with rfl | hp'
      · intro hmem
        exact hq (remove_duplicates_subset rest fs hmem)
      · exact ih fs hnd p hp'

/-- When no attempted path exists, every deletion fails (non-fatally) and the
snapshot is unchanged. -/
lemma remove_duplicates_all_failed :
    ∀ (paths fs : List String), (∀ p ∈ paths, p ∉ fs) →
      remove_duplicates paths fs =
        (fs, paths.map fun _ => RemoveOutcome.failed) := by
  intro paths
  induction paths with
  | nil => intro fs _; rfl
  | cons q rest ih =>
    intro fs h
    have hq : q ∉ fs := h q (List.mem_cons_self q rest)
    simp only [remove_duplicates, if_neg hq, List.map_cons]
    rw [ih fs (fun p hp => h p (List.mem_cons_of_mem q hp))]

/-- One outcome is recorded per attempted path. -/
lemma remove_duplicates_len :
    ∀ (paths fs : List String),
      (remove_duplicates paths fs).2.length = paths.length := by
  intro paths
  induction paths with
  | nil => intro fs; rfl
  | cons q rest ih =>
    intro fs
    by_cases hq : q ∈ fs <;>
      simp [remove_duplicates, hq, ih]

/-- Processing a concatenation of path batches is processing the first batch
and then the second on the resulting state — later deletions are unaffected
by earlier failures. -/
lemma remove_duplicates_append :
    ∀ (pre post fs : List String),
      remove_duplicates (pre ++ post) fs =
        ((remove_duplicates post (remove_duplicates pre fs).1).1,
          (remove_duplicates pre fs).2 ++
            (remove_duplicates post (remove_duplicates pre fs).1).2) := by
  intro pre
  induction pre with
  | nil => intro post fs; rfl
  | cons q rest ih =>
    intro post fs
    by_cases hq : q ∈ fs <;>
      simp [remove_duplicates, hq, ih]

/-- Claim C9: every path gets its own recorded outcome (one per path, and a
concatenated batch is processed as first part then second, so a failure never
aborts the remaining deletions), and re-running the remover on the state left
by a first run changes nothing and reports every path as a non-fatal
failure. -/
theorem remover_independent_and_idempotent (paths fs : List String)
    (hfs : fs.Nodup) :
    (remove_duplicates paths fs).2.length = paths.length ∧
    (∀ pre post fs2, remove_duplicates (pre ++ post) fs2 =
        ((remove_duplicates post (remove_duplicates pre fs2).1).1,
          (remove_duplicates pre fs2).2 ++
            (remove_duplicates post (remove_duplicates pre fs2).1).2)) ∧
    remove_duplicates paths (remove_duplicates paths fs).1 =
      ((remove_duplicates paths fs).1,
        paths.map fun _ => RemoveOutcome.failed) := by
  refine ⟨remove_duplicates_len paths fs,
    fun pre post fs2 => remove_duplicates_append pre post fs2, ?_⟩
  exact remove_duplicates_all_failed paths _
    (fun p hp => remove_duplicates_not_mem paths fs hfs p hp)

/-- Witness for claim C9 at a concrete input where one deletion fails and one
succeeds. -/
theorem remover_independent_and_idempotent_witness :
    remove_duplicates ["x", "y"] ((remove_duplicates ["x", "y"] ["y"]).1) =
      ((remove_duplicates ["x", "y"] ["y"]).1,
        [RemoveOutcome.failed, RemoveOutcome.failed]) ∧
    (remove_duplicates ["x", "y"] ["y"]).2.length = 2 := by
  have h := remover_independent_and_idempotent ["x", "y"] ["y"] (by decide)
  exact ⟨by simpa using h.2.2, by simpa using h.1⟩

/-- Claim C10: case 1 is case-sensitive while case 2 is case-insensitive —
any case variant of the exact sidecar name other than the exact spelling is
found by no pattern at all, the exact spelling is found, `PHOTO.JPG.json` in
particular is not found, and `PHOTO.JPG.supplemental.json` is found for
`photo.jpg` through case 2. -/
theorem case_sensitivity_split :
    (∀ f, lowerStr f = "photo.jpg.json" → f ≠ "photo.jpg.json" →
        find_metadata_file "photo.jpg" [f] = none) ∧
      find_metadata_file "photo.jpg" ["photo.jpg.json"] =
        some "photo.jpg.json" ∧
      find_metadata_file "photo.jpg" ["PHOTO.JPG.json"] = none ∧
      find_metadata_file "photo.jpg" ["PHOTO.JPG.supplemental.json"] =
        some "PHOTO.JPG.supplemental.json" := by
  refine ⟨?_, by decide, by decide, by decide⟩
  intro f hl hne
  have h1 : matchCase1 "photo.jpg" f = false := by
    unfold matchCase1
    exact beq_eq_false_iff_ne.mpr hne
  have h2 : matchCase2 "photo.jpg" f = false := by
    unfold matchCase2
    rw [hl]
    decide
  have h3 : matchCase3 "photo.jpg" f = false := by
    have hc : extractCounter (splitExt "photo.jpg").1 = none := by decide
    unfold matchCase3
    rw [hc]
  have h4 : matchCase4 "photo.jpg" f = false := by
    have hc : extractCounter (splitExt "photo.jpg").1 = none := by decide
    simp only [matchCase4]
    rw [hc]
  cases hj : finishesWith f ".json" <;>
    simp [find_metadata_file, hj, h1, h2, h3, h4]

/-- Witness for claim C10's general clause at a mixed-case variant. -/
theorem case_sensitivity_split_witness :
    find_metadata_file "photo.jpg" ["Photo.Jpg.Json"] = none :=
  case_sensitivity_split.1 "Photo.Jpg.Json" (by decide) (by decide)

/-- Claim C1 counterexample: in a `>1:1` configuration where both the single
album record and one candidate record carry an absent capture timestamp (no
sidecar was found for either, so both hold the `""` sentinel), the candidate
IS marked as a duplicate: the matcher output is exactly its media path and
its empty json path. -/
theorem absent_timestamp_counterexample :
    find_duplicates_core
        [(some "a", [⟨"a.jpg", TimeVal.emptyStr, "A1", ""⟩])]
        [(some "a", [⟨"a.jpg", TimeVal.emptyStr, "P1", ""⟩,
          ⟨"a.png", TimeVal.stamp 5, "P2", "P2.json"⟩])] = ["P1", ""] := by
  decide

/-- Claim C1 (amended): outside the unconditional 1:1 case a candidate is
marked exactly when its stored timestamp value equals the compared album
record's by plain value equality; two absent timestamps with the same
representation (both the `""` of a missing sidecar, or both the Python
`None` of a sidecar without the key) compare equal and therefore DO match,
while differently represented absences never match. -/
theorem absent_timestamp_plain_equality :
    (∀ alb C, branch21 alb C = C.flatMap fun gp =>
        if alb.photo_taken_time == gp.photo_taken_time then
          [gp.file_path, gp.json_path] else []) ∧
    (∀ gp R, branch12 gp R = R.flatMap fun alb =>
        if gp.photo_taken_time == alb.photo_taken_time then
          [gp.file_path, gp.json_path] else []) ∧
    (TimeVal.emptyStr == TimeVal.emptyStr) = true ∧
    (TimeVal.pyNone == TimeVal.pyNone) = true ∧
    (TimeVal.emptyStr == TimeVal.pyNone) = false ∧
    ∀ t s, ((TimeVal.stamp t == TimeVal.stamp s) = true ↔ t = s) := by
  refine ⟨?_, ?_, by decide, by decide, by decide, ?_⟩
  · intro alb C
    induction C with
    | nil => rfl
    | cons gp rest ih =>
      by_cases h : alb.photo_taken_time = gp.photo_taken_time <;>
        simp [branch21, beq_iff_eq, h, ih]
  · intro gp R
    induction R with
    | nil => rfl
    | cons alb rest ih =>
      by_cases h : gp.photo_taken_time = alb.photo_taken_time <;>
        simp [branch12, beq_iff_eq, h, ih]
  · intro t s
    simp [beq_iff_eq]

/-- An uncaught error is the only error outcome of the grouper loop, and it
happens exactly when some non-sidecar file's metadata load raises. -/
lemma group_go_error_iff (listing : List String) (jd : JsonData) :
    ∀ (toProcess : List String) (g : Grouping),
      (group_go listing jd toProcess g = Except.error () ↔
        ∃ f, f ∈ toProcess ∧ finishesWith f ".json" = false ∧
          load_metadata f listing jd = Except.error ()) := by
  intro toProcess
  induction toProcess with
  | nil => intro g; simp [group_go]
  | cons f rest ih =>
    intro g
    cases hj : finishesWith f ".json"
    · cases hl : load_metadata f listing jd with
      | error e =>
        obtain ⟨⟩ := e
        constructor
        · intro _
          exact ⟨f, List.mem_cons_self f rest, hj, hl⟩
        · intro _
          simp [group_go, hj, hl]
      | ok o =>
        cases o with
        | none =>
          rw [show group_go listing jd (f :: rest) g =
            group_go listing jd rest
              (addRecord g (some (lowerStr (splitExt f).1))
                ⟨f, TimeVal.emptyStr, f, ""⟩) by simp [group_go, hj, hl]]
          rw [ih]
          constructor
          · rintro ⟨f', hf', hjf', hlf'⟩
            exact ⟨f', List.mem_cons_of_mem f hf', hjf', hlf'⟩
          · rintro ⟨f', hf', hjf', hlf'⟩
            rcases List.mem_cons.mp hf' with rfl | hf''
            · rw [hl] at hlf'; cases hlf'
            · exact ⟨f', hf'', hjf', hlf'⟩
        | some pm =>
          rw [show group_go listing jd (f :: rest) g =
            group_go listing jd rest
              (addRecord g (get_title pm.2) ⟨f, timeOf pm.2, f, pm.1⟩) by
            simp [group_go, hj, hl]]
          rw [ih]
          constructor
          · rintro ⟨f', hf', hjf', hlf'⟩
            exact ⟨f', List.mem_cons_of_mem f hf', hjf', hlf'⟩
          · rintro ⟨f', hf', hjf', hlf'⟩
            rcases List.mem_cons.mp hf' with rfl | hf''
            · rw [hl] at hlf'; cases hlf'
            · exact ⟨f', hf'', hjf', hlf'⟩
    · rw [show group_go listing jd (f :: rest) g =
        group_go listing jd rest g by simp [group_go, hj]]
      rw [ih]
      constructor
      · rintro ⟨f', hf', hjf', hlf'⟩
        exact ⟨f', List.mem_cons_of_mem f hf', hjf', hlf'⟩
      · rintro ⟨f', hf', hjf', hlf'⟩
        rcases List.mem_cons.mp hf' with rfl | hf''
        · rw [hj] at hjf'; cases hjf'
        · exact ⟨f', hf'', hjf', hlf'⟩

/-- The metadata loader raises exactly when a sidecar was matched and its
content fails to parse. -/
lemma load_metadata_error_iff (f : String) (listing : List String)
    (jd : JsonData) :
    load_metadata f listing jd = Except.error () ↔
      ∃ j, find_metadata_file f listing = some j ∧
        lookupJson jd j = some none := by
  unfold load_metadata
  cases hf : find_metadata_file f listing with
  | none => simp
  | some j =>
    cases hl : lookupJson jd j with
    | none => simp [hl]
    | some o =>
      cases o with
      | none => simp [hl]
      | some m => simp [hl]

/-- Claim C2 counterexample: a tree holding `c.jpg` and its matched but
unparsable sidecar `c.jpg.json` makes the resolver raise instead of
returning absent, and grouping the tree aborts with that error instead of
completing with the file grouped by name. -/
theorem parse_error_counterexample :
    load_metadata "c.jpg" ["c.jpg", "c.jpg.json"] [("c.jpg.json", none)] =
        Except.error () ∧
      group_files_by_name_and_metadata ["c.jpg", "c.jpg.json"]
        [("c.jpg.json", none)] = Except.error () := by
  constructor <;> rfl

/-- Claim C2 (amended): a sidecar parse failure is raised, not logged: the
grouper aborts with the error exactly when some non-sidecar file's metadata
load raises, and the load raises exactly when a sidecar was matched whose
content fails to parse (a missing sidecar still yields absent without
error). -/
theorem parse_error_propagates :
    (∀ listing jd,
        group_files_by_name_and_metadata listing jd = Except.error () ↔
          ∃ f, f ∈ listing ∧ finishesWith f ".json" = false ∧
            load_metadata f listing jd = Except.error ()) ∧
    (∀ f listing jd, load_metadata f listing jd = Except.error () ↔
        ∃ j, find_metadata_file f listing = some j ∧
          lookupJson jd j = some none) :=
  ⟨fun listing jd => group_go_error_iff listing jd listing [],
    fun f listing jd => load_metadata_error_iff f listing jd⟩

/-- Witness for claim C2's amended equivalences at a concrete input. -/
theorem parse_error_propagates_witness :
    group_files_by_name_and_metadata ["d.jpg", "d.jpg.json"]
      [("d.jpg.json", none)] = Except.error () :=
  (parse_error_propagates.1 ["d.jpg", "d.jpg.json"]
      [("d.jpg.json", none)]).mpr
    ⟨"d.jpg", by decide, by decide, by rfl⟩

/-- Every path appended by the `>1:1` branch is a path field of one of its
candidate records. -/
lemma branch21_mem {alb : MediaRecord} {C : List MediaRecord} {x : String}
    (h : x ∈ branch21 alb C) :
    ∃ c, c ∈ C ∧ (x = c.file_path ∨ x = c.json_path) := by
  induction C with
  | nil => cases h
  | cons gp rest ih =>
    by_cases hb : alb.photo_taken_time = gp.photo_taken_time
    · simp only [branch21, beq_iff_eq, hb, if_true, List.mem_cons] at h
      rcases h with rfl | rfl | h'
      · exact ⟨gp, List.mem_cons_self gp rest, Or.inl rfl⟩
      · exact ⟨gp, List.mem_cons_self gp rest, Or.inr rfl⟩
      · obtain ⟨c, hc, hx⟩ := ih h'
        exact ⟨c, List.mem_cons_of_mem gp hc, hx⟩
    · simp only [branch21, beq_iff_eq, hb, if_false] at h
      obtain ⟨c, hc, hx⟩ := ih h
      exact ⟨c, List.mem_cons_of_mem gp hc, hx⟩

/-- Every path appended by the `1:>1` branch is a path field of the single
candidate record. -/
lemma branch12_mem {gp : MediaRecord} {R : List MediaRecord} {x : String}
    (h : x ∈ branch12 gp R) : x = gp.file_path ∨ x = gp.json_path := by
  induction R with
  | nil => cases h
  | cons alb rest ih =>
    by_cases hb : gp.photo_taken_time = alb.photo_taken_time
    · simp only [branch12, beq_iff_eq, hb, if_true, List.mem_cons] at h
      rcases h with rfl | rfl | h'
      · exact Or.inl rfl
      · exact Or.inr rfl
      · exact ih h'
    · simp only [branch12, beq_iff_eq, hb, if_false] at h
      exact ih h

/-- Every path appended by the `>1:>1` branch is a path field of one of its
candidate records. -/
lemma branchBig_mem {A C : List MediaRecord} {x : String}
    (h : x ∈ branchBig A C) :
    ∃ c, c ∈ C ∧ (x = c.file_path ∨ x = c.json_path) := by
  induction C with
  | nil => cases h
  | cons gp rest ih =>
    cases hs : scanAlbums gp A with
    | some alb =>
      simp only [branchBig, hs, List.mem_cons] at h
      rcases h with rfl | rfl | h'
      · exact ⟨gp, List.mem_cons_self gp rest, Or.inl rfl⟩
      · exact ⟨gp, List.mem_cons_self gp rest, Or.inr rfl⟩
      · obtain ⟨c, hc, hx⟩ := ih h'
        exact ⟨c, List.mem_cons_of_mem gp hc, hx⟩
    | none =>
      simp only [branchBig, hs] at h
      obtain ⟨c, hc, hx⟩ := ih h
      exact ⟨c, List.mem_cons_of_mem gp hc, hx⟩

/-- Every path contributed for one key is a path field of one of that key's
candidate records, in every cardinality case. -/
lemma branchFor_mem {R C : List MediaRecord} {x : String}
    (h : x ∈ branchFor R C) :
    ∃ c, c ∈ C ∧ (x = c.file_path ∨ x = c.json_path) := by
  rcases C with _ | ⟨c1, _ | ⟨c2, cs⟩⟩ <;>
    rcases R with _ | ⟨r1, _ | ⟨r2, rs⟩⟩ <;>
      simp only [branchFor] at h
  · cases h
  · cases h
  · cases h
  · cases h
  · simp only [List.mem_cons, List.not_mem_nil, or_false] at h
    rcases h with rfl | rfl
    · exact ⟨c1, List.mem_cons_self c1 [], Or.inl rfl⟩
    · exact ⟨c1, List.mem_cons_self c1 [], Or.inr rfl⟩
  · rcases branch12_mem h with hx | hx
    · exact ⟨c1, List.mem_cons_self c1 [], Or.inl hx⟩
    · exact ⟨c1, List.mem_cons_self c1 [], Or.inr hx⟩
  · cases h
  · exact branch21_mem h
  · exact branchBig_mem h

/-- Claim C5 counterexample: with one sidecar-less `a.jpg` in each tree, the
whole pipeline outputs the candidate media path together with the empty
string (the unset `json_path` of a record with no resolved descriptor); the
empty string is not a file of the candidate tree. -/
theorem output_contains_nonpath :
    find_duplicates ["a.jpg"] [] ["a.jpg"] [] = Except.ok ["a.jpg", ""] ∧
      "" ∉ ["a.jpg"] := by
  exact ⟨rfl, by decide⟩

/-- Claim C5 (amended): every matcher output entry comes from a candidate
record whose key is present in both groupings, and is that record's media
file path or its `json_path` field — where `json_path` is the empty string
for candidates without a resolved descriptor; keys absent from either
grouping contribute nothing. -/
theorem matcher_output_shape :
    ∀ A P x, x ∈ find_duplicates_core A P →
      ∃ k recs, (k, recs) ∈ P ∧ (lookupKey A k).isSome = true ∧
        ∃ c, c ∈ recs ∧ (x = c.file_path ∨ x = c.json_path) := by
  intro A P x hx
  have hraw : x ∈ rawDuplicates A P := List.mem_dedup.mp hx
  clear hx
  induction P with
  | nil => cases hraw
  | cons kv rest ih =>
    simp only [rawDuplicates, List.mem_append] at hraw
    rcases hraw with h | h
    · cases hA : lookupKey A kv.1 with
      | none => rw [hA] at h; cases h
      | some R =>
        rw [hA] at h
        obtain ⟨c, hc, hx⟩ := branchFor_mem h
        refine ⟨kv.1, kv.2, ?_, by rw [hA]; rfl, c, hc, hx⟩
        rw [Prod.mk.eta]
        exact List.mem_cons_self kv rest
    · obtain ⟨k, recs, hk, hs, hrest⟩ := ih h
      exact ⟨k, recs, List.mem_cons_of_mem kv hk, hs, hrest⟩

/-- Witness for claim C5's amended statement at a concrete matched pair. -/
theorem matcher_output_shape_witness :
    ∃ k recs,
      (k, recs) ∈ ([(some "b", [⟨"b.jpg", TimeVal.stamp 3, "PB", "PBj"⟩])] :
        Grouping) ∧
      (lookupKey [(some "b", [⟨"b.jpg", TimeVal.stamp 3, "AB", "ABj"⟩])]
        k).isSome = true ∧
      ∃ c, c ∈ recs ∧ ("PB" = c.file_path ∨ "PB" = c.json_path) :=
  matcher_output_shape
    [(some "b", [⟨"b.jpg", TimeVal.stamp 3, "AB", "ABj"⟩])]
    [(some "b", [⟨"b.jpg", TimeVal.stamp 3, "PB", "PBj"⟩])] "PB" (by decide)

/-- A record found in the grouping after an `addRecord` step was either
already present under the same key, or is the just-added record under the
just-used key. -/
lemma addRecord_mem_cases :
    ∀ (g : Grouping) (k0 : GroupKey) (r0 : MediaRecord) (k : GroupKey)
      (recs : List MediaRecord), (k, recs) ∈ addRecord g k0 r0 →
      ∀ r ∈ recs,
        (∃ recs', (k, recs') ∈ g ∧ r ∈ recs') ∨ (k = k0 ∧ r = r0) := by
  intro g
  induction g with
  | nil =>
    intro k0 r0 k recs h r hr
    simp only [addRecord, List.mem_singleton, Prod.mk.injEq] at h
    obtain ⟨rfl, rfl⟩ := h
    simp only [List.mem_singleton] at hr
    exact Or.inr ⟨rfl, hr⟩
  | cons kv t ih =>
    intro k0 r0 k recs h r hr
    obtain ⟨k', rs⟩ := kv
    by_cases hk : k' = k0
    · subst hk
      simp only [addRecord, beq_self_eq_true, if_true, List.mem_cons,
        Prod.mk.injEq] at h
      rcases h with ⟨rfl, rfl⟩ | h'
      · rcases List.mem_append.mp hr with hrs | hr0
        · exact Or.inl ⟨rs, List.mem_cons_self (k, rs) t, hrs⟩
        · simp only [List.mem_singleton] at hr0
          exact Or.inr ⟨rfl, hr0⟩
      · exact Or.inl ⟨recs, List.mem_cons_of_mem (k', rs) h', hr⟩
    · simp only [addRecord, beq_iff_eq, hk, if_false, List.mem_cons] at h
      rcases h with h' | h'
      · simp only [Prod.mk.injEq] at h'
        obtain ⟨rfl, rfl⟩ := h'
        exact Or.inl ⟨recs, List.mem_cons_self (k, recs) t, hr⟩
      · rcases ih k0 r0 k recs h' r hr with ⟨recs', hg, hr'⟩ | hright
        · exact Or.inl ⟨recs', List.mem_cons_of_mem (k', rs) hg, hr'⟩
        · exact Or.inr hright

/-- Invariant of the grouper loop: every record sits under the key computed
from its own metadata load — the lower-cased title (or Python `None` for a
title-less sidecar) when a sidecar was loaded, the lower-cased extensionless
base name only when none was. -/
lemma group_go_keys (listing : List String) (jd : JsonData) :
    ∀ (toProcess : List String) (g g' : Grouping),
      group_go listing jd toProcess g = Except.ok g' →
      (∀ k recs, (k, recs) ∈ g → ∀ r ∈ recs,
        (∃ p m, load_metadata r.base_name listing jd =
            Except.ok (some (p, m)) ∧ k = get_title m) ∨
        (load_metadata r.base_name listing jd = Except.ok none ∧
          k = some (lowerStr (splitExt r.base_name).1))) →
      ∀ k recs, (k, recs) ∈ g' → ∀ r ∈ recs,
        (∃ p m, load_metadata r.base_name listing jd =
            Except.ok (some (p, m)) ∧ k = get_title m) ∨
        (load_metadata r.base_name listing jd = Except.ok none ∧
          k = some (lowerStr (splitExt r.base_name).1)) := by
  intro toProcess
  induction toProcess with
  | nil =>
    intro g g' hok hinv
    have hg : g = g' := by
      simpa [group_go] using hok
    subst hg
    exact hinv
  | cons f rest ih =>
    intro g g' hok hinv
    cases hj : finishesWith f ".json"
    · cases hl : load_metadata f listing jd with
      | error e => simp [group_go, hj, hl] at hok
      | ok o =>
        cases o with
        | none =>
          have hstep : group_go listing jd (f :: rest) g =
              group_go listing jd rest
                (addRecord g (some (lowerStr (splitExt f).1))
                  ⟨f, TimeVal.emptyStr, f, ""⟩) := by
            simp [group_go, hj, hl]
          rw [hstep] at hok
          refine ih _ g' hok ?_
          intro k recs hmem r hr
          rcases addRecord_mem_cases g _ _ k recs hmem r hr with
            ⟨recs', hg, hr'⟩ | ⟨hkk, hrr⟩
          · exact hinv k recs' hg r hr'
          · subst hrr
            exact Or.inr ⟨hl, hkk⟩
        | some pm =>
          have hstep : group_go listing jd (f :: rest) g =
              group_go listing jd rest
                (addRecord g (get_title pm.2) ⟨f, timeOf pm.2, f, pm.1⟩) := by
            simp [group_go, hj, hl]
          rw [hstep] at hok
          refine ih _ g' hok ?_
          intro k recs hmem r hr
          rcases addRecord_mem_cases g _ _ k recs hmem r hr with
            ⟨recs', hg, hr'⟩ | ⟨hkk, hrr⟩
          · exact hinv k recs' hg r hr'
          · subst hrr
            refine Or.inl ⟨pm.1, pm.2, ?_, hkk⟩
            rw [hl, Prod.mk.eta]
    · have hstep : group_go listing jd (f :: rest) g =
          group_go listing jd rest g := by
        simp [group_go, hj]
      rw [hstep] at hok
      exact ih _ g' hok hinv

/-- Claim C3 counterexample: a sidecar without a `title` key files its record
under the Python `None` key, and a sidecar with the empty-string title files
it under `""` — in neither case under the media file's lower-cased base name
(`"b"` / `"d"`) that the claim requires. -/
theorem groupkey_fallback_counterexample :
    group_files_by_name_and_metadata ["b.jpg", "b.jpg.json"]
        [("b.jpg.json", some ⟨none, some 5⟩)] =
      Except.ok [(none, [⟨"b.jpg", TimeVal.stamp 5, "b.jpg", "b.jpg.json"⟩])] ∧
    group_files_by_name_and_metadata ["d.jpg", "d.jpg.json"]
        [("d.jpg.json", some ⟨some "", some 7⟩)] =
      Except.ok [(some "",
        [⟨"d.jpg", TimeVal.stamp 7, "d.jpg", "d.jpg.json"⟩])] ∧
    (none : GroupKey) ≠ some "b" ∧ (some "" : GroupKey) ≠ some "d" := by
  exact ⟨rfl, rfl, by decide, by decide⟩

/-- Claim C3 (amended): the GroupKey of every grouped record is the
descriptor's title lower-cased whenever a descriptor was loaded and has a
title field (including an empty title), the Python `None` key when a loaded
descriptor has no title field, and the file's lower-cased base name without
extension exactly when no descriptor was loaded. -/
theorem groupkey_characterization :
    ∀ listing jd g k recs r,
      group_files_by_name_and_metadata listing jd = Except.ok g →
      (k, recs) ∈ g → r ∈ recs →
      ((∃ p m, load_metadata r.base_name listing jd =
          Except.ok (some (p, m)) ∧ k = get_title m) ∨
        (load_metadata r.base_name listing jd = Except.ok none ∧
          k = some (lowerStr (splitExt r.base_name).1))) := by
  intro listing jd g k recs r hok hmem hr
  exact group_go_keys listing jd listing [] g hok
    (by intro k' recs' h; cases h) k recs hmem r hr

/-- Witness for claim C3's amended statement at the title-less sidecar
input. -/
theorem groupkey_characterization_witness :
    (∃ p m, load_metadata "b.jpg" ["b.jpg", "b.jpg.json"]
          [("b.jpg.json", some ⟨none, some 5⟩)] = Except.ok (some (p, m)) ∧
        (none : GroupKey) = get_title m) ∨
      (load_metadata "b.jpg" ["b.jpg", "b.jpg.json"]
          [("b.jpg.json", some ⟨none, some 5⟩)] = Except.ok none ∧
        (none : GroupKey) = some (lowerStr (splitExt "b.jpg").1)) :=
  groupkey_characterization ["b.jpg", "b.jpg.json"]
    [("b.jpg.json", some ⟨none, some 5⟩)]
    [(none, [⟨"b.jpg", TimeVal.stamp 5, "b.jpg", "b.jpg.json"⟩])] none
    [⟨"b.jpg", TimeVal.stamp 5, "b.jpg", "b.jpg.json"⟩]
    ⟨"b.jpg", TimeVal.stamp 5, "b.jpg", "b.jpg.json"⟩ rfl (by decide)
    (by decide)

/-- Witness for claim C1's amended branch equations at a both-absent pair. -/
theorem absent_timestamp_plain_equality_witness :
    branch21 ⟨"a.jpg", TimeVal.emptyStr, "A1", ""⟩
        [⟨"a.jpg", TimeVal.emptyStr, "P1", ""⟩] =
      ([⟨"a.jpg", TimeVal.emptyStr, "P1", ""⟩] :
          List MediaRecord).flatMap fun gp =>
        if (⟨"a.jpg", TimeVal.emptyStr, "A1", ""⟩ :
            MediaRecord).photo_taken_time == gp.photo_taken_time then
          [gp.file_path, gp.json_path] else [] :=
  absent_timestamp_plain_equality.1 ⟨"a.jpg", TimeVal.emptyStr, "A1", ""⟩
    [⟨"a.jpg", TimeVal.emptyStr, "P1", ""⟩]

/-- Witness for claim C4's amended listing-order equations at a concrete
split listing. -/
theorem pattern_priority_amended_witness :
    find_metadata_file "photo.jpg" (["zz.json"] ++ ["photo.jpg.json"]) =
      ((find_metadata_file "photo.jpg" ["zz.json"]).or
        (find_metadata_file "photo.jpg" ["photo.jpg.json"])) :=
  pattern_priority_amended.2 "photo.jpg" ["zz.json"] ["photo.jpg.json"]

/-- Witness for claim C7's scan equations at a concrete two-part reference
list. -/
theorem first_match_scan_witness :
    scanAlbums ⟨"g.jpg", TimeVal.stamp 1, "G", ""⟩
        ([⟨"r1.jpg", TimeVal.stamp 1, "R1", ""⟩] ++
          [⟨"r2.jpg", TimeVal.stamp 1, "R2", ""⟩]) =
      ((scanAlbums ⟨"g.jpg", TimeVal.stamp 1, "G", ""⟩
          [⟨"r1.jpg", TimeVal.stamp 1, "R1", ""⟩]).or
        (scanAlbums ⟨"g.jpg", TimeVal.stamp 1, "G", ""⟩
          [⟨"r2.jpg", TimeVal.stamp 1, "R2", ""⟩])) :=
  first_match_scan.2.1 ⟨"g.jpg", TimeVal.stamp 1, "G", ""⟩
    [⟨"r1.jpg", TimeVal.stamp 1, "R1", ""⟩]
    [⟨"r2.jpg", TimeVal.stamp 1, "R2", ""⟩]

/-- Witness for claim C8's deduplication facts at a concrete matched pair. -/
theorem output_deduplicated_witness :
    (find_duplicates_core
        [(some "w", [⟨"w.jpg", TimeVal.stamp 2, "AW", "AWj"⟩])]
        [(some "w", [⟨"w.jpg", TimeVal.stamp 2, "PW", "PWj"⟩])]).Nodup :=
  (output_deduplicated
    [(some "w", [⟨"w.jpg", TimeVal.stamp 2, "AW", "AWj"⟩])]
    [(some "w", [⟨"w.jpg", TimeVal.stamp 2, "PW", "PWj"⟩])]).1
